import Mathlib

/-!
Shallow embedding of the `a-star` repository's core: the grid builder
(`src/src/map.cpp`, `src/src/map_generator.cpp`) and the path finder
(`src/src/path_finder.cpp`, with the legacy variant `src/src/search.cpp`),
together with the heuristic library (`src/src/heuristic.cpp`) and the shared
types of `src/inc/planner.h`.

Modelling conventions:
* C++ `int` becomes `Int`; C++ `unsigned int` arithmetic is `Nat` with an
  explicit `% 4294967296` where the source adds two unsigned values.
* The per-cell scratch arrays `nodes` and `closed_list` become total maps
  `Coord → Node` and `Coord → Bool`; the source only ever reads and writes
  them at in-range coordinates on the runs studied here.
* The C++ open list is `std::set<planner::Node*>`, a set of freshly
  allocated node pointers; node objects are never mutated after creation, so
  it is modelled as a list of `Node` values in insertion order.  Its C++
  iteration order is the unspecified pointer order; the model fixes
  insertion order.  The concrete refutation runs below were chosen so that
  every pop has a unique minimum `f`, which makes them independent of that
  order.
* The two `while` loops (`astar`'s search loop and `get_path`'s parent
  walk) take explicit fuel and return `none` when the fuel runs out; claims
  are stated about runs that terminate within the given fuel.
-/

namespace Planner

/-- `INT_MAX` of the C++ implementation (32-bit). -/
def INT_MAX : Nat := 2147483647

/-- Modulus of C++ `unsigned int` arithmetic (32-bit). -/
def UINT_MOD : Nat := 4294967296

/-- `#define FREE 0` from `src/inc/planner.h`. -/
def FREE : Nat := 0

/-- `#define BLOCKED 1` from `src/inc/planner.h`. -/
def BLOCKED : Nat := 1

/-- `#define FREE_CELL 225` from `src/inc/planner.h`. -/
def FREE_CELL : Int := 225

/-- `planner::Coord` from `src/inc/planner.h`: an integer (row, column) pair. -/
structure Coord where
  r : Int
  c : Int
deriving DecidableEq, Repr

/-- `Coord::operator+` from `src/inc/planner.h`: component-wise addition. -/
def Coord.add (a b : Coord) : Coord := ⟨a.r + b.r, a.c + b.c⟩

/-- `planner::MapParameters` from `src/inc/planner.h`. -/
structure MapParameters where
  width_ : Int
  height_ : Int
  dilation_ : Int
  window_size_ : Int
  num_divs_w_ : Int
  num_divs_h_ : Int
  min_thresh_ : Int
  max_thresh_ : Int
deriving DecidableEq, Repr

/-- `planner::Node`.  `src/inc/planner.h` declares only the fields `parent`
and `h`; `src/src/path_finder.cpp` additionally reads a field `g` and calls a
method `f()` on nodes (`Node( { source_, 0, 0 } )`, `temp_node->g`,
`node->f()`), whose declaration is not in `src/`.
Modelled from the spec: the missing extended `Node` carries `gCost` and
`fCost = gCost + hCost` (spec section 4.3), so `g` is a third unsigned field
and `f()` returns `h + g` in unsigned arithmetic.  In the open list the
`parent` field of a freshly created node holds the node's own cell
coordinate (see `Node( { move, h_temp, g_temp } )` and
`temp_node->parent`). -/
structure Node where
  parent : Coord
  h : Nat
  g : Nat
deriving DecidableEq, Repr

/-- The `f()` accessor of the extended node: `h + g` as C++ `unsigned int`. -/
def Node.f (n : Node) : Nat := (n.h + n.g) % UINT_MOD

/-- `directions_` from the `PathFinder` constructor in
`src/src/path_finder.cpp` (lines 18-27): right, down, left, up, then the
four diagonals. -/
def directions_ : List Coord :=
  [⟨0, 1⟩, ⟨1, 0⟩, ⟨0, -1⟩, ⟨-1, 0⟩, ⟨-1, -1⟩, ⟨1, 1⟩, ⟨-1, 1⟩, ⟨1, -1⟩]

/-- `planner::heuristic::TYPE` from `src/inc/planner.h`. -/
inductive HeuristicType where
  | EUCLIDEAN
  | MANHATTAN
  | OCTAGONAL
  | NOT_SUPPORTED
deriving DecidableEq, Repr

/-- `heuristic::Function::get_delta` from `src/src/heuristic.cpp`: the
component-wise absolute difference of two coordinates. -/
def get_delta (coordinate1 coordinate2 : Coord) : Coord :=
  ⟨(coordinate1.r - coordinate2.r).natAbs, (coordinate1.c - coordinate2.c).natAbs⟩

/-- `heuristic::Function::manhattan` from `src/src/heuristic.cpp`. -/
def manhattan (coordinate1 coordinate2 : Coord) : Nat :=
  ((get_delta coordinate1 coordinate2).r + (get_delta coordinate1 coordinate2).c).toNat

/-- The integer square root `⌊√n⌋`, written as the count of the positive
integers whose square is at most `n` (kernel-reducible, unlike the
well-founded `Nat.sqrt`; `isqrt_eq_sqrt` below shows the two agree). -/
def isqrt (n : Nat) : Nat :=
  ((List.range n).filter (fun k => decide ((k + 1) * (k + 1) ≤ n))).length

/-- `heuristic::Function::euclidean` from `src/src/heuristic.cpp`:
`(unsigned int)(sqrt(pow(delta.r,2) + pow(delta.c,2)))`.  The C++ value is
the truncated double-precision square root; for the small arguments produced
by grid coordinates (well below 2^26) the double computation is exact enough
that truncation agrees with the integer square root. -/
def euclidean (coordinate1 coordinate2 : Coord) : Nat :=
  isqrt (((get_delta coordinate1 coordinate2).r ^ 2 +
          (get_delta coordinate1 coordinate2).c ^ 2).toNat)

/-- `heuristic::Function::octagonal` from `src/src/heuristic.cpp`. -/
def octagonal (coordinate1 coordinate2 : Coord) : Nat :=
  (((get_delta coordinate1 coordinate2).r + (get_delta coordinate1 coordinate2).c) -
    min (get_delta coordinate1 coordinate2).r (get_delta coordinate1 coordinate2).c).toNat

/-- The heuristic function bound by `PathFinder::set_heuristic`
(`src/src/path_finder.cpp` lines 59-97).  For `NOT_SUPPORTED` the setter
fails and leaves the constructor default (`MANHATTAN`). -/
def heuristic_func (t : HeuristicType) : Coord → Coord → Nat :=
  match t with
  | .EUCLIDEAN => euclidean
  | .MANHATTAN => manhattan
  | .OCTAGONAL => octagonal
  | .NOT_SUPPORTED => manhattan

/-- `num_directions_` set by `PathFinder::set_heuristic`: 8 for `EUCLIDEAN`
and `OCTAGONAL`, 4 for `MANHATTAN` (and the constructor default for
`NOT_SUPPORTED`). -/
def num_directions (t : HeuristicType) : Nat :=
  match t with
  | .EUCLIDEAN => 8
  | .MANHATTAN => 4
  | .OCTAGONAL => 8
  | .NOT_SUPPORTED => 4

/-- `PathFinder::is_coord_in_range` from `src/src/path_finder.cpp` lines
155-160: row against `map_params.height_`, column against
`map_params.width_` (the pixel extents stored in `MapParameters`). -/
def is_coord_in_range (coordinate : Coord) (map_params : MapParameters) : Bool :=
  decide ((0 ≤ coordinate.r) ∧ (map_params.height_ > coordinate.r) ∧
          (0 ≤ coordinate.c) ∧ (map_params.width_ > coordinate.c))

/-- `Function::is_coord_valid` from the legacy `src/src/search.cpp` lines
247-252: note the swapped comparisons (row against `width_`, column against
`height_`). -/
def search_is_coord_valid (coordinate : Coord) (map_param : MapParameters) : Bool :=
  decide ((coordinate.r ≥ 0) ∧ (coordinate.r < map_param.width_) ∧
          (coordinate.c ≥ 0) ∧ (coordinate.c < map_param.height_))

/-- Lookup `bin_map[r][c]`.  Out-of-range lookups (undefined behaviour in
the C++) default to `FREE`; on the runs studied here all lookups are guarded
by a range check consistent with the grid dimensions. -/
def bin_at (bin_map : List (List Nat)) (coordinate : Coord) : Nat :=
  (bin_map.getD coordinate.r.toNat []).getD coordinate.c.toNat FREE

/-- `PathFinder::is_coord_blocked` from `src/src/path_finder.cpp` lines
167-171: `BLOCKED == bin_map[r][c]`. -/
def is_coord_blocked (coordinate : Coord) (bin_map : List (List Nat)) : Bool :=
  decide (BLOCKED = bin_at bin_map coordinate)

/-- Pointwise update of the per-cell node array. -/
def setNode (N : Coord → Node) (x : Coord) (v : Node) : Coord → Node :=
  fun y => if y = x then v else N y

/-- Pointwise update of the closed-list array (`closed_list[r][c] = true`). -/
def setClosed (cl : Coord → Bool) (x : Coord) : Coord → Bool :=
  fun y => if y = x then true else cl y

/-- Search state of one `PathFinder::astar` invocation: the per-cell node
records, the closed list, and the open list (in insertion order). -/
structure AState where
  nodes : Coord → Node
  closed : Coord → Bool
  open_list : List Node

/-- The scan at `src/src/path_finder.cpp` lines 278-285: walk the open list
keeping the node with `node->f() <= temp_node->f()`, so among the minimal-`f`
entries the last one in iteration order wins.  Returns the chosen node and
its position (the C++ then erases exactly that element via
`std::find`). -/
def pick_from : List Node → Node → Nat → Nat → Node × Nat
  | [], best, bestIdx, _ => (best, bestIdx)
  | n :: rest, best, bestIdx, i =>
    if n.f ≤ best.f then pick_from rest n i (i + 1)
    else pick_from rest best bestIdx (i + 1)

/-- The per-step cost added at `src/src/path_finder.cpp` line 321:
`( ( i < 4 ) ? 2 : 4 )` — 2 for the four cardinal directions, 4 for the
four diagonal directions. -/
def step_cost (i : Nat) : Nat := if i < 4 then 2 else 4

/-- Result of processing the successors of one expanded cell. -/
inductive ExpandOut where
  | finished (nodes : Coord → Node)
  | cont (nodes : Coord → Node) (opn : List Node) (tmp : Node)

/-- The successor loop of `PathFinder::astar` (`src/src/path_finder.cpp`
lines 296-335) over direction indices `is`.  `tmp` is the C++ `temp_node`
pointer: it starts as the popped node and — exactly as in the source — is
re-bound to each newly created successor node, so later successors in the
same expansion read their base `g` from the previously inserted
successor. -/
def expand (bin_map : List (List Nat)) (map_params : MapParameters)
    (destination : Coord) (hfun : Coord → Coord → Nat) (current : Coord)
    (closed : Coord → Bool) :
    List Nat → (Coord → Node) → List Node → Node → ExpandOut
  | [], N, opn, tmp => .cont N opn tmp
  | i :: rest, N, opn, tmp =>
    let move := Coord.add current (directions_.getD i ⟨0, 0⟩)
    if is_coord_in_range move map_params then
      if move = destination then
        .finished (setNode N destination { N destination with parent := current })
      else if closed move = false ∧ is_coord_blocked move bin_map = false then
        let h_temp := hfun move destination
        let g_temp := (tmp.g + step_cost i) % UINT_MOD
        if (N move).f = INT_MAX ∨ (h_temp + g_temp) % UINT_MOD < (N move).f then
          let temp_node : Node := ⟨move, h_temp, g_temp⟩
          expand bin_map map_params destination hfun current closed rest
            (setNode N move ⟨current, h_temp, g_temp⟩) (opn ++ [temp_node]) temp_node
        else expand bin_map map_params destination hfun current closed rest N opn tmp
      else expand bin_map map_params destination hfun current closed rest N opn tmp
    else expand bin_map map_params destination hfun current closed rest N opn tmp

/-- Outcome of the main search loop. -/
inductive CoreOut where
  | found (nodes : Coord → Node)
  | nopath
  | fuelout

/-- The main `while( !open_list.empty() )` loop of `PathFinder::astar`
(`src/src/path_finder.cpp` lines 275-336), with explicit fuel.  One
iteration pops the scanned minimum, marks it closed (no staleness check —
an already closed coordinate is simply re-expanded), and processes its
successors. -/
def astar_loop (bin_map : List (List Nat)) (map_params : MapParameters)
    (destination : Coord) (hfun : Coord → Coord → Nat) (nd : Nat) :
    Nat → AState → CoreOut
  | 0, _ => .fuelout
  | fuel + 1, st =>
    match st.open_list with
    | [] => .nopath
    | n₀ :: rest =>
      let pk := pick_from (n₀ :: rest) n₀ 0 0
      let temp_node := pk.1
      let current := temp_node.parent
      let opn := (n₀ :: rest).eraseIdx pk.2
      let closed := setClosed st.closed current
      match expand bin_map map_params destination hfun current closed
          (List.range nd) st.nodes opn temp_node with
      | .finished N => .found N
      | .cont N opn2 _ => astar_loop bin_map map_params destination hfun nd fuel
          ⟨N, closed, opn2⟩

/-- `PathFinder::get_path` (`src/src/path_finder.cpp` lines 347-358): from
`destination`, follow parent pointers until a cell is its own parent,
collecting coordinates in that order (destination first; there is no
reversal).  Fuel bounds the walk; `none` means the fuel ran out. -/
def get_path_loop (N : Coord → Node) : Nat → Coord → Option (List Coord)
  | 0, _ => none
  | fuel + 1, temp =>
    if (N temp).parent = temp then some [temp]
    else (get_path_loop N fuel (N temp).parent).map (fun p => temp :: p)

/-- The per-cell initialization of `PathFinder::astar` (lines 252-268):
every cell starts as `{ {-1,-1}, INT_MAX, INT_MAX }`, then the source cell
gets `h = 0` and `parent = source` (its `g` stays `INT_MAX`). -/
def init_nodes (source : Coord) : Coord → Node :=
  setNode (fun _ => ⟨⟨-1, -1⟩, INT_MAX, INT_MAX⟩) source ⟨source, 0, INT_MAX⟩

/-- Initial search state: open list holds the single node
`Node( { source_, 0, 0 } )` (line 270). -/
def init_state (source : Coord) : AState :=
  ⟨init_nodes source, fun _ => false, [⟨source, 0, 0⟩]⟩

/-- `PathFinder::astar` (`src/src/path_finder.cpp` lines 214-345), returning
the final contents of `path_` (`some path`) or `none` when a fuel bound was
hit.  The early returns leave `path_` as the caller's cleared `[]`:  out of
range or blocked endpoints return `false`, `source == destination` returns
`true`, and an exhausted open list clears the path — in all three cases the
resulting `path_` is `[]`. -/
def astar (bin_map : List (List Nat)) (map_params : MapParameters)
    (source destination : Coord) (hfun : Coord → Coord → Nat) (nd : Nat)
    (fuel fuelg : Nat) : Option (List Coord) :=
  if is_coord_in_range source map_params = false then some []
  else if is_coord_in_range destination map_params = false then some []
  else if is_coord_blocked source bin_map then some []
  else if is_coord_blocked destination bin_map then some []
  else if source = destination then some []
  else
    match astar_loop bin_map map_params destination hfun nd fuel (init_state source) with
    | .found N => get_path_loop N fuelg destination
    | .nopath => some []
    | .fuelout => none

/-- `PathFinder::find_path` (`src/src/path_finder.cpp` lines 173-207):
fails on an empty map, clears `path_`, runs `astar` (discarding its return
value), and reports success exactly when the resulting `path_` is
non-empty.  `some p` models `find_path` returning `true` with `get_path()`
returning `p`; `none` models `find_path` returning `false` (or a fuel
artefact of the embedding). -/
def find_path (bin_map : List (List Nat)) (map_params : MapParameters)
    (source destination : Coord) (heuristic : HeuristicType)
    (fuel fuelg : Nat) : Option (List Coord) :=
  if bin_map = [] then none
  else
    match astar bin_map map_params source destination
        (heuristic_func heuristic) (num_directions heuristic) fuel fuelg with
    | none => none
    | some p => if p = [] then none else some p

/-! ### Spec-side path validity and cost (for the optimality comparison) -/

/-- Modelled from the spec: the per-step cost between two adjacent cells
under the active connectivity — cardinal steps cost 2 units, diagonal steps
4 units (the constants the code applies at line 321). -/
def move_cost (a b : Coord) : Nat := if a.r = b.r ∨ a.c = b.c then 2 else 4

/-- Modelled from the spec: the total cost of a path, the sum of the
per-step costs of its consecutive pairs. -/
def path_cost : List Coord → Nat
  | [] => 0
  | [_] => 0
  | a :: b :: t => move_cost a b + path_cost (b :: t)

/-- Modelled from the spec: `b` is reachable from `a` by one movement offset
of the active connectivity (the first `nd` entries of `directions_`). -/
def legal_step (nd : Nat) (a b : Coord) : Bool :=
  (List.range nd).any (fun i => decide (b = Coord.add a (directions_.getD i ⟨0, 0⟩)))

/-- Modelled from the spec: every consecutive pair of the list is a legal
step of the active connectivity. -/
def chain_ok (nd : Nat) : List Coord → Bool
  | [] => true
  | [_] => true
  | a :: b :: t => legal_step nd a b && chain_ok nd (b :: t)

/-- Modelled from the spec: `p` is a valid path from `a` to `b` over the
grid — it starts at `a`, ends at `b`, stays in range and off blocked cells,
and every step is a movement offset of the active connectivity. -/
def is_valid_path (bin_map : List (List Nat)) (map_params : MapParameters)
    (nd : Nat) (a b : Coord) (p : List Coord) : Bool :=
  decide (p.head? = some a) && decide (p.getLast? = some b) &&
  p.all (fun x => is_coord_in_range x map_params && !is_coord_blocked x bin_map) &&
  chain_ok nd p

/-- Modelled from the spec: `m` is the minimal total cost over all valid
paths from `a` to `b` (as computed by Dijkstra or exhaustive
enumeration). -/
def is_min_cost (bin_map : List (List Nat)) (map_params : MapParameters)
    (nd : Nat) (a b : Coord) (m : Nat) : Prop :=
  (∃ p, is_valid_path bin_map map_params nd a b p = true ∧ path_cost p = m) ∧
  ∀ p, is_valid_path bin_map map_params nd a b p = true → m ≤ path_cost p

/-- Iterated parent lookup: follow `n` parent back-pointers from `x`. -/
def parent_iter (N : Coord → Node) : Nat → Coord → Coord
  | 0, x => x
  | n + 1, x => parent_iter N n (N x).parent

/-! ### The grid builder (`src/src/map.cpp` and `src/src/map_generator.cpp`)

The C++ reads the dilated obstacle image through `cv::Mat::at<uchar>`; the
image is modelled as a rectangular matrix of byte intensities
`List (List Nat)`. -/

/-- `Map::roi_average` from `src/src/map.cpp` lines 267-283: the integer
mean of a region (`sum / (rows * cols)`, with the `sum == 0` short-circuit
that returns the same value).  `src/src/map_generator.cpp` lines 195-204 is
the same computation over `int`. -/
def roi_average (roi : List (List Nat)) : Int :=
  let num_elements : Nat := roi.length * (roi.getD 0 []).length
  let sum : Nat := (roi.map (fun row => row.foldl (fun a b => a + b) 0)).foldl
    (fun a b => a + b) 0
  ((if sum = 0 then 0 else sum / num_elements : Nat) : Int)

/-- The window `obstacle_map_( roi & bounds )` of `Map::generate_binary_map`:
the `win × win` region with top-left pixel `(y, x)`, clipped to the image
bounds. -/
def cell_region (img : List (List Nat)) (win x y : Nat) : List (List Nat) :=
  ((img.drop y).take win).map (fun row => (row.drop x).take win)

/-- The cell classification of `Map::generate_binary_map`
(`src/src/map.cpp` line 226): `avg < FREE_CELL ? BLOCKED : FREE`. -/
def classify_cell (avg : Int) : Nat := if avg < FREE_CELL then BLOCKED else FREE

/-- `Map::generate_binary_map` (`src/src/map.cpp` lines 205-230) as a grid
of classifications: cell `(i, j)` is the classification of the mean of the
window with top-left pixel `(i*win, j*win)`.  (The C++ loops `x`, `y` over
pixel multiples of `win` and writes `binary_map_[y/win][x/win]`; for image
dimensions that are multiples of `win` — as with the constructor-derived
`num_divs` — this is exactly the grid below.) -/
def generate_binary_map (img : List (List Nat)) (win num_divs_h num_divs_w : Nat) :
    List (List Nat) :=
  (List.range num_divs_h).map (fun i =>
    (List.range num_divs_w).map (fun j =>
      classify_cell (roi_average (cell_region img win (j * win) (i * win)))))

/-- Modelled from the spec: the constant `FREE_BLOCK` compared against the
cell mean by `Map::generate_bin_map` in `src/src/map_generator.cpp` line 168
is not defined anywhere under `src/`; the spec fixes the free-cell intensity
threshold at 225. -/
def FREE_BLOCK : Int := 225

/-- The cell classification of the legacy `Map::generate_bin_map`
(`src/src/map_generator.cpp` line 168): `avg < FREE_BLOCK ? 0 : 1`. -/
def classify_cell_gen (avg : Int) : Nat := if avg < FREE_BLOCK then 0 else 1

/-- The legacy `Map::generate_bin_map` (`src/src/map_generator.cpp` lines
153-172) as a grid of classifications (same loop structure as
`generate_binary_map`, different classification polarity). -/
def generate_bin_map (img : List (List Nat)) (win num_divs_h num_divs_w : Nat) :
    List (List Nat) :=
  (List.range num_divs_h).map (fun i =>
    (List.range num_divs_w).map (fun j =>
      classify_cell_gen (roi_average (cell_region img win (j * win) (i * win)))))

/-! ### The `Map` constructor validation (`src/src/map.cpp` lines 47-98) -/

/-- Outcome of the parameterized `Map` constructor: either a constructed
parameter set, or process termination (`exit( EXIT_FAILURE )`). -/
inductive CtorOutcome where
  | ok (params : MapParameters)
  | abort
deriving DecidableEq, Repr

/-- The geometry validation and derived-field computation of the
parameterized `Map` constructor (`src/src/map.cpp` lines 70-78): the
process is terminated exactly when one of width, height, window size,
dilation is strictly negative (`< 0`, so zero passes), otherwise
`num_divs_w_ = width_ / window_size_` and `num_divs_h_ = height_ /
window_size_` are filled in.  (With `window_size_ = 0` the C++ divides by
zero — undefined behaviour; the model's `Int.div _ 0 = 0` is an arbitrary
stand-in that the theorems below do not rely on.) -/
def map_construct (width height dilation window min_thresh max_thresh : Int) :
    CtorOutcome :=
  if width < 0 ∨ height < 0 ∨ window < 0 ∨ dilation < 0 then .abort
  else .ok ⟨width, height, dilation, window,
            Int.tdiv width window, Int.tdiv height window, min_thresh, max_thresh⟩

/-! ### Invariants of the search loop -/

/-- Invariant of the per-cell node array relative to `seq`, the list of
coordinates in the order they were first closed.  `parent_ok` is the core:
every assigned parent pointer of a non-source cell points to an already
closed cell, one movement offset away, and strictly earlier in the closing
order — which is what makes parent chains acyclic. -/
structure NodesInv (bin_map : List (List Nat)) (map_params : MapParameters)
    (source destination : Coord) (nd : Nat) (seq : List Coord)
    (N : Coord → Node) : Prop where
  nodup : seq.Nodup
  source_first : ∀ x, x ∈ seq → seq.head? = some source
  seq_ok : ∀ x, x ∈ seq →
    is_coord_blocked x bin_map = false ∧ is_coord_in_range x map_params = true
  dst_notin : destination ∉ seq
  src_parent : (N source).parent = source
  seq_parent : ∀ x, x ∈ seq → x ≠ source → (N x).parent ≠ (⟨-1, -1⟩ : Coord)
  parent_ok : ∀ x, x ≠ source → (N x).parent ≠ (⟨-1, -1⟩ : Coord) →
    (N x).parent ∈ seq ∧
    (∃ i, i < nd ∧ x = Coord.add (N x).parent (directions_.getD i ⟨0, 0⟩)) ∧
    (x ∈ seq → seq.indexOf (N x).parent < seq.indexOf x)

/-- Invariant of the open list: every open node's coordinate is unblocked,
in range, not the destination, and already has an assigned parent pointer
in the node array. -/
def OpenOk (bin_map : List (List Nat)) (map_params : MapParameters)
    (destination : Coord) (N : Coord → Node) (opn : List Node) : Prop :=
  ∀ n, n ∈ opn →
    is_coord_blocked n.parent bin_map = false ∧
    is_coord_in_range n.parent map_params = true ∧
    n.parent ≠ destination ∧
    (N n.parent).parent ≠ (⟨-1, -1⟩ : Coord)

/-- Invariant of the whole search state. -/
structure LoopInv (bin_map : List (List Nat)) (map_params : MapParameters)
    (source destination : Coord) (nd : Nat) (seq : List Coord)
    (st : AState) : Prop where
  nodes_inv : NodesInv bin_map map_params source destination nd seq st.nodes
  closed_iff : ∀ x, st.closed x = true ↔ x ∈ seq
  open_ok : OpenOk bin_map map_params destination st.nodes st.open_list
  init_case : seq = [] →
    st.nodes = init_nodes source ∧ st.open_list = [⟨source, 0, 0⟩]

/-- What the invariants yield for either outcome of one successor loop. -/
def ExpandGood (bin_map : List (List Nat)) (map_params : MapParameters)
    (source destination : Coord) (nd : Nat) (seq : List Coord)
    (current : Coord) : ExpandOut → Prop
  | .finished N2 => NodesInv bin_map map_params source destination nd seq N2 ∧
      (N2 destination).parent = current
  | .cont N2 opn2 _ => NodesInv bin_map map_params source destination nd seq N2 ∧
      OpenOk bin_map map_params destination N2 opn2

/-- What holds of the final node array when the search reports the
destination found. -/
structure FoundInv (bin_map : List (List Nat)) (map_params : MapParameters)
    (source destination : Coord) (nd : Nat) (seq : List Coord)
    (N : Coord → Node) : Prop where
  nodes_inv : NodesInv bin_map map_params source destination nd seq N
  dst_parent_mem : (N destination).parent ∈ seq

/-! ### Concrete fixtures used by the refutations and witnesses -/

/-- A 3×3 all-free grid's parameters (window size 1, so the pixel extents
and the cell counts coincide). -/
def P33F : MapParameters := ⟨3, 3, 2, 1, 3, 3, 200, 255⟩

/-- A 3×3 all-free occupancy grid. -/
def BM33F : List (List Nat) := [[0, 0, 0], [0, 0, 0], [0, 0, 0]]

/-- The path `PathFinder::find_path` returns on `BM33F` from (2,1) to (0,1)
with the `EUCLIDEAN` heuristic. -/
def cexPathC1 : List Coord := [⟨0, 1⟩, ⟨1, 2⟩, ⟨2, 2⟩, ⟨2, 1⟩]

/-- A 1×3 all-free grid's parameters. -/
def P13F : MapParameters := ⟨3, 1, 2, 1, 3, 1, 200, 255⟩

/-- A 1×3 all-free occupancy grid. -/
def BM13F : List (List Nat) := [[0, 0, 0]]

/-- The path `PathFinder::find_path` returns on `BM13F` from (0,0) to
(0,2) with the `MANHATTAN` heuristic: destination first, source last. -/
def cexPathC2 : List Coord := [⟨0, 2⟩, ⟨0, 1⟩, ⟨0, 0⟩]

/-- A 1×1 all-free grid's parameters. -/
def P11F : MapParameters := ⟨1, 1, 2, 1, 1, 1, 200, 255⟩

/-- The default 640×480 map parameters of the `Map` constructors (window
size 10, hence 64×48 grid cells). -/
def P640 : MapParameters := ⟨640, 480, 2, 10, 64, 48, 200, 255⟩

/-- The node array produced by the search loop on the 1×3 fixture run from
(0,0) to (0,2) (used to witness the parent-chain termination theorem). -/
def foundN13 : Coord → Node :=
  match astar_loop BM13F P13F ⟨0, 2⟩ (heuristic_func .MANHATTAN)
      (num_directions .MANHATTAN) 100 (init_state ⟨0, 0⟩) with
  | .found N => N
  | _ => init_nodes ⟨0, 0⟩

/-! ## Theorems -/

/-- Sanity check of the executable square root used by `euclidean`: it is
the mathematical integer square root. -/
theorem isqrt_eq_sqrt (n : Nat) : isqrt n = Nat.sqrt n := by
  unfold isqrt
  have h1 : ∀ k : Nat, (decide ((k + 1) * (k + 1) ≤ n)) = (decide (k < Nat.sqrt n)) := by
    intro k
    have h : ((k + 1) * (k + 1) ≤ n) ↔ (k < Nat.sqrt n) := by
      rw [← Nat.succ_le_iff, Nat.le_sqrt']
      constructor
      · intro hh
        calc (k + 1) ^ 2 = (k + 1) * (k + 1) := by ring
        _ ≤ n := hh
      · intro hh
        calc (k + 1) * (k + 1) = (k + 1) ^ 2 := by ring
        _ ≤ n := hh
    simp [h]
  simp only [h1]
  have h2 : ∀ N m : Nat, ((List.range N).filter (fun k => decide (k < m))).length = min m N := by
    intro N m
    induction N with
    | zero => simp
    | succ N ih =>
      rw [List.range_succ, List.filter_append, List.length_append, ih]
      by_cases h : N < m
      · have he : (List.filter (fun k => decide (k < m)) [N]).length = 1 := by simp [h]
        rw [he, Nat.min_def, Nat.min_def]
        split_ifs <;> omega
      · have he : (List.filter (fun k => decide (k < m)) [N]).length = 0 := by simp [h]
        rw [he, Nat.min_def, Nat.min_def]
        split_ifs <;> omega
  rw [h2]
  have := Nat.sqrt_le_self n
  omega

/-- Every legal step costs at least 2 units, so a chain of `k` steps costs
at least `2k`. -/
theorem path_cost_lower_bound (nd : Nat) :
    ∀ p : List Coord, chain_ok nd p = true → 2 * (p.length - 1) ≤ path_cost p := by
  intro p
  induction p with
  | nil => intro _; simp [path_cost]
  | cons a t ih =>
    cases t with
    | nil => intro _; simp [path_cost]
    | cons b t2 =>
      intro hc
      unfold chain_ok at hc
      rw [Bool.and_eq_true] at hc
      have hrest := ih hc.2
      have hmc : 2 ≤ move_cost a b := by
        unfold move_cost
        split_ifs <;> omega
      unfold path_cost
      simp only [List.length_cons] at hrest ⊢
      omega

/-- Element `i < n` of a grid built as a map over `List.range`. -/
theorem getD_map_range {α : Type} (f : Nat → α) (n i : Nat) (d : α) (h : i < n) :
    ((List.range n).map f).getD i d = f i := by
  rw [List.getD_eq_getElem?_getD, List.getElem?_map, List.getElem?_range h]
  rfl

/-- C4.  The claim says a call with `source == destination` (in range, not
blocked) succeeds with a single-element zero-cost path.  In the code,
`PathFinder::astar` returns `true` at line 246 without writing `path_`, so
the caller `find_path` sees an empty `path_` at line 200 and reports
failure ("Could not find path", return `false`).  Evaluated on a 1×1 free
grid with `source = destination = (0,0)`: the preconditions hold, yet
`find_path` fails. -/
theorem C4_source_eq_destination_code_bug :
    is_coord_in_range ⟨0, 0⟩ P11F = true ∧
    is_coord_blocked ⟨0, 0⟩ [[0]] = false ∧
    find_path [[0]] P11F ⟨0, 0⟩ ⟨0, 0⟩ .MANHATTAN 100 20 = none := by decide

/-- C5.  The claim says `findPath` rejects exactly the endpoints outside
`[0, numCellsH) × [0, numCellsW)`.  `PathFinder::is_coord_in_range`
instead compares against `map_params.height_`/`width_` — the pixel
extents: on the default 640×480/window-10 configuration (cell grid 48×64),
the coordinate (100, 5) passes the range check although its row is ≥ the
cell-row count 48 (the subsequent `bin_map[100]` access is out of bounds).
The legacy `Function::is_coord_valid` additionally swaps the two extents:
(500, 100) passes although 500 ≥ `height_` = 480. -/
theorem C5_range_check_code_bug :
    is_coord_in_range ⟨100, 5⟩ P640 = true ∧
    P640.num_divs_h_ = 48 ∧ ¬ ((100 : Int) < P640.num_divs_h_) ∧
    search_is_coord_valid ⟨500, 100⟩ P640 = true ∧
    ¬ ((500 : Int) < P640.height_) := by decide

/-- C6 counterexample.  On a one-pixel all-black image (mean 0, below the
threshold 225), `Map::generate_binary_map` classifies the cell `BLOCKED`
but the builder variant `Map::generate_bin_map` (map_generator.cpp) writes
`0`, which is `FREE` under the shared constants of planner.h — so the two
builder variants do not share one blocked/free polarity, contradicting the
claim's "same blocked/free polarity in every builder variant". -/
theorem C6_counterexample :
    generate_binary_map [[0]] 1 1 1 = [[BLOCKED]] ∧
    generate_bin_map [[0]] 1 1 1 = [[FREE]] ∧ BLOCKED ≠ FREE := by decide

/-- C6 amended: `Map::generate_binary_map` classifies a cell `BLOCKED`
exactly when the integer mean of the cell's region is strictly below the
free-cell threshold 225 and `FREE` otherwise; the legacy
`Map::generate_bin_map` uses the opposite encoding, writing `BLOCKED` (1)
exactly when the mean is not below its threshold. -/
theorem C6_threshold_amended :
    ∀ (img : List (List Nat)) (win ndh ndw i j : Nat), i < ndh → j < ndw →
    (((generate_binary_map img win ndh ndw).getD i []).getD j FREE = BLOCKED ↔
       roi_average (cell_region img win (j * win) (i * win)) < FREE_CELL) ∧
    (((generate_bin_map img win ndh ndw).getD i []).getD j 0 = BLOCKED ↔
       ¬ roi_average (cell_region img win (j * win) (i * win)) < FREE_BLOCK) := by
  intro img win ndh ndw i j hi hj
  unfold generate_binary_map generate_bin_map
  rw [getD_map_range _ _ _ _ hi, getD_map_range _ _ _ _ hi,
      getD_map_range _ _ _ _ hj, getD_map_range _ _ _ _ hj]
  constructor
  · unfold classify_cell
    split_ifs with h
    · simpa using h
    · simp only [BLOCKED, FREE]
      constructor
      · intro hh; exact absurd hh (by decide)
      · intro hh; exact absurd hh h
  · unfold classify_cell_gen
    split_ifs with h
    · simp only [BLOCKED]
      constructor
      · intro hh; exact absurd hh (by decide)
      · intro hh; exact absurd h hh
    · simp only [BLOCKED, not_lt]
      exact iff_of_true trivial (not_lt.mp h)

/-- C6 amended, witnessed at the all-black one-pixel image. -/
theorem C6_threshold_amended_witness :
    (((generate_binary_map [[0]] 1 1 1).getD 0 []).getD 0 FREE = BLOCKED ↔
       roi_average (cell_region [[0]] 1 (0 * 1) (0 * 1)) < FREE_CELL) ∧
    (((generate_bin_map [[0]] 1 1 1).getD 0 []).getD 0 0 = BLOCKED ↔
       ¬ roi_average (cell_region [[0]] 1 (0 * 1) (0 * 1)) < FREE_BLOCK) :=
  C6_threshold_amended [[0]] 1 1 1 0 0 (by decide) (by decide)

/-- C7 counterexample.  The cost increment applied by the successor loop of
`PathFinder::astar` (line 321) is `step_cost`: 2 for a cardinal step and 4
for a diagonal step — not the claimed 10 and 14. -/
theorem C7_counterexample :
    step_cost 0 = 2 ∧ step_cost 4 = 4 ∧
    ¬ (step_cost 0 = 10 ∧ step_cost 4 = 14) := by decide

/-- C7 amended: every cardinal expansion step (direction index < 4) adds 2
cost units and every diagonal step adds 4 — a fixed integer ratio of 2, not
an approximation of √2.  Observably, the successful 1×3 run takes two
cardinal steps for a total cost of 4 (the claim's constants would give
20). -/
theorem C7_step_cost_amended :
    (∀ i, i < 4 → step_cost i = 2) ∧ (∀ i, 4 ≤ i → step_cost i = 4) ∧
    step_cost 4 = 2 * step_cost 0 ∧
    find_path BM13F P13F ⟨0, 0⟩ ⟨0, 2⟩ .MANHATTAN 100 20 = some cexPathC2 ∧
    path_cost cexPathC2 = 4 := by
  refine ⟨?_, ?_, by decide, by decide, by decide⟩
  · intro i hi
    unfold step_cost
    simp [hi]
  · intro i hi
    unfold step_cost
    simp [Nat.not_lt.mpr hi]

/-- C7 amended, witnessed at a cardinal and a diagonal index. -/
theorem C7_step_cost_amended_witness :
    step_cost 0 = 2 ∧ step_cost 5 = 4 :=
  ⟨C7_step_cost_amended.1 0 (by decide), C7_step_cost_amended.2.1 5 (by decide)⟩

/-- C8 counterexample.  The claim says any configuration with a zero or
negative width/height/cellSize/dilationRadius is rejected with an explicit
error result and without aborting the process.  The `Map` constructor's
check (`map.cpp` lines 70-75) uses `< 0`, so a zero width is accepted
(`ok`), and the rejection path for a negative width is `exit(EXIT_FAILURE)`
(abort), not an error return. -/
theorem C8_counterexample :
    map_construct 0 480 2 10 200 255 = .ok ⟨0, 480, 2, 10, 0, 48, 200, 255⟩ ∧
    map_construct (-1) 480 2 10 200 255 = .abort := by decide

/-- C8 amended: the constructor aborts the process exactly when one of
width, height, window size (cellSize), dilation is strictly negative; zero
values pass the validation. -/
theorem C8_geometry_amended :
    ∀ w h d win mi ma : Int,
    map_construct w h d win mi ma = CtorOutcome.abort ↔
      (w < 0 ∨ h < 0 ∨ win < 0 ∨ d < 0) := by
  intro w h d win mi ma
  unfold map_construct
  split_ifs with hcond
  · simp [hcond]
  · simp [hcond]

/-- The minimal path cost from (2,1) to (0,1) on the all-free 3×3 grid
under 8-directional connectivity is 4: the two-cardinal-step path costs 4,
and no single legal step connects the two cells, so any valid path has at
least two steps and hence cost at least 4. -/
theorem C1_cex_min_cost : is_min_cost BM33F P33F 8 ⟨2, 1⟩ ⟨0, 1⟩ 4 := by
  constructor
  · exact ⟨[⟨2, 1⟩, ⟨1, 1⟩, ⟨0, 1⟩], by decide, by decide⟩
  · intro p hp
    unfold is_valid_path at hp
    simp only [Bool.and_eq_true, decide_eq_true_eq] at hp
    obtain ⟨⟨⟨hhead, hlast⟩, _hall⟩, hchain⟩ := hp
    rcases p with _ | ⟨a, rest⟩
    · simp at hhead
    · have ha : a = ⟨2, 1⟩ := by simpa using hhead
      subst ha
      rcases rest with _ | ⟨b, rest2⟩
      · exfalso
        simp at hlast
      · rcases rest2 with _ | ⟨c, rest3⟩
        · exfalso
          have hb : b = ⟨0, 1⟩ := by simpa using hlast
          subst hb
          unfold chain_ok at hchain
          rw [Bool.and_eq_true] at hchain
          exact absurd hchain.1 (by decide)
        · have hlb := path_cost_lower_bound 8 (⟨2, 1⟩ :: b :: c :: rest3) hchain
          simp only [List.length_cons] at hlb
          omega

/-- C1 counterexample.  On the all-free 3×3 grid with the `EUCLIDEAN`
heuristic (8-directional), `find_path` from (2,1) to (0,1) returns the
path (0,1) ← (1,2) ← (2,2) ← (2,1) of total cost 8, while the minimal
source-to-destination cost over the same grid and connectivity is 4 — the
returned cost is not minimal.  (On this run every open-list pop has a
unique minimal `f`, so the result does not depend on the modelled
iteration order of the C++ `std::set`.) -/
theorem C1_counterexample :
    find_path BM33F P33F ⟨2, 1⟩ ⟨0, 1⟩ .EUCLIDEAN 100 20 = some cexPathC1 ∧
    is_min_cost BM33F P33F 8 ⟨2, 1⟩ ⟨0, 1⟩ 4 ∧
    path_cost cexPathC1 = 8 :=
  ⟨by decide, C1_cex_min_cost, by decide⟩

/-- C2 counterexample.  On the 1×3 free grid, the successful `find_path`
call from (0,0) to (0,2) returns the parent chain unreversed: the first
element is the destination (0,2) and the last is the source (0,0) — not
source first, destination last as claimed. -/
theorem C2_counterexample :
    find_path BM13F P13F ⟨0, 0⟩ ⟨0, 2⟩ .MANHATTAN 100 20 = some cexPathC2 ∧
    (⟨0, 0⟩ : Coord) ≠ ⟨0, 2⟩ ∧
    ¬ (cexPathC2.head? = some (⟨0, 0⟩ : Coord) ∧
       cexPathC2.getLast? = some (⟨0, 2⟩ : Coord)) := by decide



/-- Reading the cell just written. -/
theorem setNode_self (N : Coord → Node) (x : Coord) (v : Node) : setNode N x v x = v := by
  unfold setNode; simp

/-- Reading a different cell than the one written. -/
theorem setNode_other (N : Coord → Node) (x : Coord) (v : Node) (y : Coord) (h : y ≠ x) :
    setNode N x v y = N y := by
  unfold setNode; simp [h]

/-- An in-range coordinate is never the sentinel parent `{-1,-1}`. -/
theorem in_range_ne_sentinel (x : Coord) (mp : MapParameters)
    (h : is_coord_in_range x mp = true) : x ≠ ⟨-1, -1⟩ := by
  unfold is_coord_in_range at h
  simp only [decide_eq_true_eq] at h
  intro he
  subst he
  simp at h

/-- The scan of the open list returns either its seed or a list element. -/
theorem pick_from_mem : ∀ (l : List Node) (best : Node) (bi i : Nat),
    (pick_from l best bi i).1 = best ∨ (pick_from l best bi i).1 ∈ l := by
  intro l
  induction l with
  | nil => intro best bi i; left; rfl
  | cons n rest ih =>
    intro best bi i
    unfold pick_from
    split_ifs
    · rcases ih n i (i + 1) with h | h
      · right; rw [h]; exact List.mem_cons_self _ _
      · right; exact List.mem_cons_of_mem _ h
    · rcases ih best bi (i + 1) with h | h
      · left; exact h
      · right; exact List.mem_cons_of_mem _ h

/-- A non-empty closing sequence contains its head, the source. -/
theorem head_mem_of_mem {seq : List Coord} {src y : Coord}
    (hf : ∀ x, x ∈ seq → seq.head? = some src) (hy : y ∈ seq) : src ∈ seq := by
  have h := hf y hy
  rcases seq with _ | ⟨a, t⟩
  · cases hy
  · simp only [List.head?_cons, Option.some.injEq] at h
    subst h
    exact List.mem_cons_self _ _

/-- The bound number of directions is always 4 or 8. -/
theorem num_directions_cases (t : HeuristicType) :
    num_directions t = 4 ∨ num_directions t = 8 := by
  cases t <;> simp [num_directions]

/-- The 4- and 8-direction sets are closed under negation: if `a` is one
movement offset away from `b`, then stepping from `a` to `b` is legal. -/
theorem legal_step_symm {nd : Nat} (hnd : nd = 4 ∨ nd = 8) {a b : Coord}
    (h : ∃ i, i < nd ∧ a = Coord.add b (directions_.getD i ⟨0, 0⟩)) :
    legal_step nd a b = true := by
  obtain ⟨i, hi, he⟩ := h
  have hgoal : ∀ j, j < nd → b = Coord.add a (directions_.getD j ⟨0, 0⟩) →
      legal_step nd a b = true := by
    intro j hj hbe
    unfold legal_step
    rw [List.any_eq_true]
    exact ⟨j, List.mem_range.mpr hj, decide_eq_true hbe⟩
  have hnd8 : nd ≤ 8 := by rcases hnd with h4 | h8 <;> omega
  have hi8 : i < 8 := lt_of_lt_of_le hi hnd8
  cases b with
  | mk br bc =>
    interval_cases i
    · exact hgoal 2 (by rcases hnd with h | h <;> omega)
        (by subst he; simp [directions_, Coord.add])
    · exact hgoal 3 (by rcases hnd with h | h <;> omega)
        (by subst he; simp [directions_, Coord.add])
    · exact hgoal 0 (by rcases hnd with h | h <;> omega)
        (by subst he; simp [directions_, Coord.add])
    · exact hgoal 1 (by rcases hnd with h | h <;> omega)
        (by subst he; simp [directions_, Coord.add])
    · exact hgoal 5 (by rcases hnd with h | h <;> omega)
        (by subst he; simp [directions_, Coord.add])
    · exact hgoal 4 (by rcases hnd with h | h <;> omega)
        (by subst he; simp [directions_, Coord.add])
    · exact hgoal 7 (by rcases hnd with h | h <;> omega)
        (by subst he; simp [directions_, Coord.add])
    · exact hgoal 6 (by rcases hnd with h | h <;> omega)
        (by subst he; simp [directions_, Coord.add])



/-- The per-step cost is symmetric. -/
theorem move_cost_comm (a b : Coord) : move_cost a b = move_cost b a := by
  unfold move_cost
  by_cases h : a.r = b.r ∨ a.c = b.c
  · rw [if_pos h, if_pos (h.imp (fun e => e.symm) (fun e => e.symm))]
  · rw [if_neg h, if_neg (fun hc => h (hc.imp (fun e => e.symm) (fun e => e.symm)))]

/-- `chain_ok` is `List.Chain'` of the legal-step relation. -/
theorem chain_ok_iff_chain' (nd : Nat) :
    ∀ p, chain_ok nd p = true ↔ List.Chain' (fun a b => legal_step nd a b = true) p := by
  intro p
  induction p with
  | nil => simp [chain_ok]
  | cons a t ih =>
    cases t with
    | nil => simp [chain_ok]
    | cons b t2 =>
      unfold chain_ok
      rw [Bool.and_eq_true, List.chain'_cons]
      exact and_congr Iff.rfl ih

/-- A legal chain read backwards is still a legal chain. -/
theorem chain_ok_reverse {nd : Nat} (hnd : nd = 4 ∨ nd = 8) (p : List Coord)
    (h : chain_ok nd p = true) : chain_ok nd p.reverse = true := by
  rw [chain_ok_iff_chain'] at h ⊢
  rw [List.chain'_reverse]
  apply List.Chain'.imp ?_ h
  intro a b hab
  unfold legal_step at hab
  rw [List.any_eq_true] at hab
  obtain ⟨i, hi, he⟩ := hab
  rw [decide_eq_true_eq] at he
  exact legal_step_symm hnd ⟨i, List.mem_range.mp hi, he⟩

/-- Cost of a path extended by one coordinate. -/
theorem path_cost_concat : ∀ (l : List Coord) (x : Coord),
    path_cost (l ++ [x]) =
      path_cost l + (match l.getLast? with | none => 0 | some y => move_cost y x) := by
  intro l
  induction l with
  | nil => intro x; simp [path_cost]
  | cons a t ih =>
    intro x
    cases t with
    | nil => simp [path_cost]
    | cons b t2 =>
      have hstep : path_cost ((a :: b :: t2) ++ [x]) =
          move_cost a b + path_cost ((b :: t2) ++ [x]) := by
        simp only [List.cons_append]
        rfl
      rw [hstep, ih x]
      have hlast : (a :: b :: t2).getLast? = (b :: t2).getLast? := by
        simp [List.getLast?_cons_cons]
      rw [hlast]
      have hpc : path_cost (a :: b :: t2) = move_cost a b + path_cost (b :: t2) := rfl
      rw [hpc]
      omega

/-- Reversing a path does not change its total cost. -/
theorem path_cost_reverse : ∀ p : List Coord, path_cost p.reverse = path_cost p := by
  intro p
  induction p with
  | nil => rfl
  | cons a t ih =>
    rw [List.reverse_cons, path_cost_concat, ih, List.getLast?_reverse]
    cases t with
    | nil => rfl
    | cons b t2 =>
      simp only [List.head?_cons]
      have hpc : path_cost (a :: b :: t2) = move_cost a b + path_cost (b :: t2) := rfl
      rw [hpc, move_cost_comm b a]
      omega

/-- A successful parent walk returns a non-empty path. -/
theorem get_path_loop_ne_nil (N : Coord → Node) :
    ∀ f x p, get_path_loop N f x = some p → p ≠ [] := by
  intro f
  induction f with
  | zero => intro x p h; cases h
  | succ f ih =>
    intro x p h
    unfold get_path_loop at h
    split_ifs at h with hp
    · cases h; simp
    · rw [Option.map_eq_some'] at h
      obtain ⟨q, _, hq⟩ := h
      subst hq
      simp

/-- A parent walk that succeeds with some fuel succeeds with any more. -/
theorem get_path_loop_mono (N : Coord → Node) :
    ∀ f f' x p, get_path_loop N f x = some p → f ≤ f' →
    get_path_loop N f' x = some p := by
  intro f
  induction f with
  | zero => intro f' x p h; cases h
  | succ f ih =>
    intro f' x p h hle
    rcases f' with _ | f2
    · omega
    · unfold get_path_loop at h ⊢
      split_ifs at h ⊢ with hp
      · exact h
      · rw [Option.map_eq_some'] at h
        obtain ⟨q, hq, hqe⟩ := h
        rw [ih f2 _ q hq (by omega)]
        simp [hqe]

/-- Two successful parent walks from the same cell agree. -/
theorem get_path_loop_unique (N : Coord → Node) (f f2 : Nat) (x : Coord)
    (p p2 : List Coord) (h1 : get_path_loop N f x = some p)
    (h2 : get_path_loop N f2 x = some p2) : p = p2 := by
  rcases le_total f f2 with hle | hle
  · have := get_path_loop_mono N f f2 x p h1 hle
    rw [this] at h2
    exact Option.some.inj h2
  · have := get_path_loop_mono N f2 f x p2 h2 hle
    rw [this] at h1
    exact (Option.some.inj h1).symm

/-- The parent walk starts at its argument. -/
theorem get_path_loop_head (N : Coord → Node) :
    ∀ f x p, get_path_loop N f x = some p → p.head? = some x := by
  intro f
  induction f with
  | zero => intro x p h; cases h
  | succ f ih =>
    intro x p h
    unfold get_path_loop at h
    split_ifs at h with hp
    · cases h; rfl
    · rw [Option.map_eq_some'] at h
      obtain ⟨q, _, hq⟩ := h
      subst hq
      rfl

/-- The last element of a successful parent walk is the iterated parent
of the start. -/
theorem get_path_loop_last_iter (N : Coord → Node) :
    ∀ f x p, get_path_loop N f x = some p →
    p.getLast? = some (parent_iter N (p.length - 1) x) := by
  intro f
  induction f with
  | zero => intro x p h; cases h
  | succ f ih =>
    intro x p h
    unfold get_path_loop at h
    split_ifs at h with hp
    · cases h
      simp [parent_iter]
    · rw [Option.map_eq_some'] at h
      obtain ⟨q, hq, hqe⟩ := h
      subst hqe
      have hqne := get_path_loop_ne_nil N f _ q hq
      have hlast := ih _ q hq
      rcases q with _ | ⟨b, t⟩
      · exact absurd rfl hqne
      · rw [List.getLast?_cons_cons]
        rw [hlast]
        congr 1


/-- Writing an unclosed cell's record — parent pointing at a closed cell
one movement offset away — preserves the node-array invariant. -/
theorem NodesInv_update {bm : List (List Nat)} {mp : MapParameters}
    {src dst : Coord} {nd : Nat} {seq : List Coord} {N : Coord → Node}
    (hN : NodesInv bm mp src dst nd seq N)
    (move : Coord) (hmnotin : move ∉ seq) (v : Node)
    (hvparent : v.parent ∈ seq)
    (hadj : ∃ i, i < nd ∧ move = Coord.add v.parent (directions_.getD i ⟨0, 0⟩)) :
    NodesInv bm mp src dst nd seq (setNode N move v) := by
  have hsrc_mem : src ∈ seq := head_mem_of_mem hN.source_first hvparent
  have hmove_ne_src : move ≠ src := fun he => hmnotin (by rw [he]; exact hsrc_mem)
  refine ⟨hN.nodup, hN.source_first, hN.seq_ok, hN.dst_notin, ?_, ?_, ?_⟩
  · rw [setNode_other _ _ _ _ (Ne.symm hmove_ne_src)]
    exact hN.src_parent
  · intro x hx hxs
    rw [setNode_other _ _ _ _ (fun he => hmnotin (by rw [← he]; exact hx))]
    exact hN.seq_parent x hx hxs
  · intro x hxs hxp
    by_cases hxm : x = move
    · subst hxm
      rw [setNode_self] at hxp ⊢
      exact ⟨hvparent, hadj, fun hmem => absurd hmem hmnotin⟩
    · rw [setNode_other _ _ _ _ hxm] at hxp ⊢
      exact hN.parent_ok x hxs hxp

/-- Closing one more (unblocked, in-range, non-destination) cell extends
the node-array invariant to the longer closing sequence. -/
theorem NodesInv_extend {bm : List (List Nat)} {mp : MapParameters}
    {src dst : Coord} {nd : Nat} {seq : List Coord} {N : Coord → Node}
    (hN : NodesInv bm mp src dst nd seq N)
    (current : Coord) (hnot : current ∉ seq)
    (hsrc_cur : seq = [] → current = src)
    (hblocked : is_coord_blocked current bm = false)
    (hrange : is_coord_in_range current mp = true)
    (hne_dst : current ≠ dst)
    (hpar : (N current).parent ≠ (⟨-1, -1⟩ : Coord)) :
    NodesInv bm mp src dst nd (seq ++ [current]) N := by
  refine ⟨?_, ?_, ?_, ?_, hN.src_parent, ?_, ?_⟩
  · exact hN.nodup.append (List.nodup_singleton _)
      (by intro a ha hb; simp at hb; subst hb; exact hnot ha)
  · intro x hx
    by_cases hseq : seq = []
    · subst hseq
      simp only [List.nil_append, List.head?_cons]
      rw [hsrc_cur rfl]
    · obtain ⟨a, t, he⟩ := List.exists_cons_of_ne_nil hseq
      have ha_mem : a ∈ seq := he ▸ List.mem_cons_self a t
      have hhead := hN.source_first a ha_mem
      rw [he] at hhead ⊢
      simp only [List.cons_append, List.head?_cons] at hhead ⊢
      exact hhead
  · intro x hx
    rcases List.mem_append.mp hx with hx1 | hx1
    · exact hN.seq_ok x hx1
    · have : x = current := by simpa using hx1
      subst this
      exact ⟨hblocked, hrange⟩
  · intro hmem
    rcases List.mem_append.mp hmem with h1 | h1
    · exact hN.dst_notin h1
    · have : dst = current := by simpa using h1
      exact hne_dst this.symm
  · intro x hx hxs
    rcases List.mem_append.mp hx with hx1 | hx1
    · exact hN.seq_parent x hx1 hxs
    · have : x = current := by simpa using hx1
      subst this
      exact hpar
  · intro x hxs hxp
    obtain ⟨hmem, hadjx, hrank⟩ := hN.parent_ok x hxs hxp
    refine ⟨List.mem_append_left _ hmem, hadjx, ?_⟩
    intro hx2
    rcases List.mem_append.mp hx2 with hx3 | hx3
    · rw [List.indexOf_append_of_mem hmem, List.indexOf_append_of_mem hx3]
      exact hrank hx3
    · have hxcur : x = current := by simpa using hx3
      subst hxcur
      rw [List.indexOf_append_of_mem hmem, List.indexOf_append_of_not_mem hnot,
          List.indexOf_cons_self]
      have h1 : List.indexOf (N x).parent seq < seq.length :=
        List.indexOf_lt_length.mpr hmem
      omega



/-- An element at index 0 is the head. -/
theorem indexOf_zero_head {α : Type} [DecidableEq α] {seq : List α} {x : α}
    (hx : x ∈ seq) (h0 : List.indexOf x seq = 0) : seq.head? = some x := by
  rcases seq with _ | ⟨a, t⟩
  · cases hx
  · by_cases hax : a = x
    · simp [hax]
    · rw [List.indexOf_cons_ne _ hax] at h0
      cases h0

/-- The parent walk from the source itself stops immediately. -/
theorem chain_src_case {bm : List (List Nat)} {mp : MapParameters}
    {src dst : Coord} {nd : Nat} {seq : List Coord} {N : Coord → Node}
    (hN : NodesInv bm mp src dst nd seq N) (hsrc : src ∈ seq) (f : Nat) :
    ∃ p, get_path_loop N (f + 1) src = some p ∧ p.head? = some src ∧
      p.getLast? = some src ∧
      (∀ y, y ∈ p → is_coord_blocked y bm = false ∧ is_coord_in_range y mp = true) ∧
      chain_ok nd p = true := by
  refine ⟨[src], ?_, rfl, rfl, ?_, by simp [chain_ok]⟩
  · unfold get_path_loop
    rw [if_pos hN.src_parent]
  · intro y hy
    simp at hy
    subst hy
    exact hN.seq_ok _ hsrc

/-- Core of termination and path validity: from any closed cell, the
parent walk terminates within its closing index, ends at the source, and
yields an unblocked, in-range, legally-connected chain.  Strong induction
on the closing index, using that parents point strictly earlier in the
closing order. -/
theorem chain_from_seq {bm : List (List Nat)} {mp : MapParameters}
    {src dst : Coord} {nd : Nat} {seq : List Coord} {N : Coord → Node}
    (hN : NodesInv bm mp src dst nd seq N) (hnd : nd = 4 ∨ nd = 8) :
    ∀ k x, x ∈ seq → List.indexOf x seq ≤ k →
    ∃ p, get_path_loop N (k + 1) x = some p ∧ p.head? = some x ∧
      p.getLast? = some src ∧
      (∀ y, y ∈ p → is_coord_blocked y bm = false ∧ is_coord_in_range y mp = true) ∧
      chain_ok nd p = true := by
  intro k
  induction k with
  | zero =>
    intro x hx hidx
    have hx_src : x = src := by
      have hhead := hN.source_first x hx
      have hh2 := indexOf_zero_head hx (Nat.le_zero.mp hidx)
      rw [hhead] at hh2
      exact (Option.some.inj hh2).symm
    subst hx_src
    exact chain_src_case hN hx 0
  | succ k ih =>
    intro x hx hidx
    by_cases hxs : x = src
    · subst hxs
      exact chain_src_case hN hx (k + 1)
    · have hpar_ne := hN.seq_parent x hx hxs
      obtain ⟨hpmem, hadj, hrank⟩ := hN.parent_ok x hxs hpar_ne
      have hrank2 := hrank hx
      have hple : List.indexOf (N x).parent seq ≤ k := by omega
      obtain ⟨p', hp', hhead', hlast', hall', hchain'⟩ := ih (N x).parent hpmem hple
      have hpar_ne_x : (N x).parent ≠ x := by
        intro he
        rw [he] at hrank2
        omega
      rcases p' with _ | ⟨b, t⟩
      · cases hhead'
      · have hb : b = (N x).parent := by
          simpa using hhead'
        refine ⟨x :: b :: t, ?_, rfl, ?_, ?_, ?_⟩
        · show get_path_loop N (k + 1 + 1) x = some (x :: b :: t)
          unfold get_path_loop
          rw [if_neg hpar_ne_x, hp']
          rfl
        · rw [List.getLast?_cons_cons]
          exact hlast'
        · intro y hy
          rcases List.mem_cons.mp hy with hy1 | hy1
          · subst hy1
            exact hN.seq_ok y hx
          · exact hall' y hy1
        · have hleg : legal_step nd x b = true := by
            rw [hb]
            exact legal_step_symm hnd hadj
          show (legal_step nd x b && chain_ok nd (b :: t)) = true
          rw [Bool.and_eq_true]
          exact ⟨hleg, hchain'⟩



/-- One unfolding step of the successor loop. -/
theorem expand_cons (bm : List (List Nat)) (mp : MapParameters) (dst : Coord)
    (hf : Coord → Coord → Nat) (current : Coord) (closed : Coord → Bool)
    (i : Nat) (rest : List Nat) (N : Coord → Node) (opn : List Node) (tmp : Node) :
    expand bm mp dst hf current closed (i :: rest) N opn tmp =
      (if is_coord_in_range (Coord.add current (directions_.getD i ⟨0, 0⟩)) mp then
         if Coord.add current (directions_.getD i ⟨0, 0⟩) = dst then
           .finished (setNode N dst { N dst with parent := current })
         else if closed (Coord.add current (directions_.getD i ⟨0, 0⟩)) = false ∧
             is_coord_blocked (Coord.add current (directions_.getD i ⟨0, 0⟩)) bm = false then
           (if (N (Coord.add current (directions_.getD i ⟨0, 0⟩))).f = INT_MAX ∨
               (hf (Coord.add current (directions_.getD i ⟨0, 0⟩)) dst +
                 (tmp.g + step_cost i) % UINT_MOD) % UINT_MOD <
                 (N (Coord.add current (directions_.getD i ⟨0, 0⟩))).f then
              expand bm mp dst hf current closed rest
                (setNode N (Coord.add current (directions_.getD i ⟨0, 0⟩))
                  ⟨current, hf (Coord.add current (directions_.getD i ⟨0, 0⟩)) dst,
                   (tmp.g + step_cost i) % UINT_MOD⟩)
                (opn ++ [⟨Coord.add current (directions_.getD i ⟨0, 0⟩),
                   hf (Coord.add current (directions_.getD i ⟨0, 0⟩)) dst,
                   (tmp.g + step_cost i) % UINT_MOD⟩])
                ⟨Coord.add current (directions_.getD i ⟨0, 0⟩),
                   hf (Coord.add current (directions_.getD i ⟨0, 0⟩)) dst,
                   (tmp.g + step_cost i) % UINT_MOD⟩
            else expand bm mp dst hf current closed rest N opn tmp)
         else expand bm mp dst hf current closed rest N opn tmp
       else expand bm mp dst hf current closed rest N opn tmp) := rfl

/-- The successor loop preserves the node-array and open-list invariants,
and when it reaches the destination it records the expanded cell as the
destination's parent. -/
theorem expand_inv {bm : List (List Nat)} {mp : MapParameters}
    {src dst : Coord} {nd : Nat}
    {seq : List Coord} {current : Coord} {closed : Coord → Bool}
    (hf : Coord → Coord → Nat)
    (hcl : ∀ x, closed x = true ↔ x ∈ seq)
    (hcur : current ∈ seq) :
    ∀ (il : List Nat) (N : Coord → Node) (opn : List Node) (tmp : Node),
    (∀ i, i ∈ il → i < nd) →
    NodesInv bm mp src dst nd seq N →
    OpenOk bm mp dst N opn →
    ExpandGood bm mp src dst nd seq current
      (expand bm mp dst hf current closed il N opn tmp) := by
  intro il
  induction il with
  | nil =>
    intro N opn tmp _ hN hopn
    exact ⟨hN, hopn⟩
  | cons i rest ih =>
    intro N opn tmp his hN hopn
    have hi_nd : i < nd := his i (List.mem_cons_self _ _)
    have hrest : ∀ j, j ∈ rest → j < nd := fun j hj => his j (List.mem_cons_of_mem _ hj)
    have hcur_ok := hN.seq_ok current hcur
    have hcur_ne_sent : current ≠ ⟨-1, -1⟩ := in_range_ne_sentinel current mp hcur_ok.2
    rw [expand_cons]
    by_cases h1 : is_coord_in_range (Coord.add current (directions_.getD i ⟨0, 0⟩)) mp
    · rw [if_pos h1]
      by_cases h2 : Coord.add current (directions_.getD i ⟨0, 0⟩) = dst
      · rw [if_pos h2]
        refine ⟨?_, ?_⟩
        · exact NodesInv_update hN dst hN.dst_notin _ hcur ⟨i, hi_nd, by rw [← h2]⟩
        · rw [setNode_self]
      · rw [if_neg h2]
        by_cases h3 : closed (Coord.add current (directions_.getD i ⟨0, 0⟩)) = false ∧
            is_coord_blocked (Coord.add current (directions_.getD i ⟨0, 0⟩)) bm = false
        · rw [if_pos h3]
          have hmnotin : Coord.add current (directions_.getD i ⟨0, 0⟩) ∉ seq := by
            intro hmem
            rw [(hcl _).mpr hmem] at h3
            exact absurd h3.1 (by simp)
          by_cases h4 : (N (Coord.add current (directions_.getD i ⟨0, 0⟩))).f = INT_MAX ∨
              (hf (Coord.add current (directions_.getD i ⟨0, 0⟩)) dst +
                (tmp.g + step_cost i) % UINT_MOD) % UINT_MOD <
                (N (Coord.add current (directions_.getD i ⟨0, 0⟩))).f
          · rw [if_pos h4]
            apply ih _ _ _ hrest
            · exact NodesInv_update hN _ hmnotin _ hcur ⟨i, hi_nd, rfl⟩
            · intro n hn
              rcases List.mem_append.mp hn with hn1 | hn1
              · obtain ⟨hb, hr, hd, hp⟩ := hopn n hn1
                refine ⟨hb, hr, hd, ?_⟩
                by_cases hnm : n.parent = Coord.add current (directions_.getD i ⟨0, 0⟩)
                · rw [hnm, setNode_self]
                  exact hcur_ne_sent
                · rw [setNode_other _ _ _ _ hnm]
                  exact hp
              · have hn2 : n = ⟨Coord.add current (directions_.getD i ⟨0, 0⟩),
                    hf (Coord.add current (directions_.getD i ⟨0, 0⟩)) dst,
                    (tmp.g + step_cost i) % UINT_MOD⟩ := by simpa using hn1
                subst hn2
                refine ⟨h3.2, h1, h2, ?_⟩
                rw [setNode_self]
                exact hcur_ne_sent
          · rw [if_neg h4]
            exact ih _ _ _ hrest hN hopn
        · rw [if_neg h3]
          exact ih _ _ _ hrest hN hopn
    · rw [if_neg h1]
      exact ih _ _ _ hrest hN hopn



/-- One unfolding step of the search loop on a non-empty open list. -/
theorem astar_loop_succ_cons (bm : List (List Nat)) (mp : MapParameters) (dst : Coord)
    (hf : Coord → Coord → Nat) (nd fuel : Nat) (nds : Coord → Node)
    (cls : Coord → Bool) (n₀ : Node) (rest : List Node) :
    astar_loop bm mp dst hf nd (fuel + 1) ⟨nds, cls, n₀ :: rest⟩ =
      (match expand bm mp dst hf (pick_from (n₀ :: rest) n₀ 0 0).1.parent
          (setClosed cls (pick_from (n₀ :: rest) n₀ 0 0).1.parent)
          (List.range nd) nds
          ((n₀ :: rest).eraseIdx (pick_from (n₀ :: rest) n₀ 0 0).2)
          (pick_from (n₀ :: rest) n₀ 0 0).1 with
       | .finished N => CoreOut.found N
       | .cont N opn2 _ => astar_loop bm mp dst hf nd fuel
           ⟨N, setClosed cls (pick_from (n₀ :: rest) n₀ 0 0).1.parent, opn2⟩) := rfl

/-- The search loop preserves `LoopInv`; whenever it reports the
destination found, some closing sequence satisfies `FoundInv` for the
final node array. -/
theorem astar_loop_found_inv {bm : List (List Nat)} {mp : MapParameters}
    {src dst : Coord} {hf : Coord → Coord → Nat} {nd : Nat} :
    ∀ (fuel : Nat) (st : AState) (seq : List Coord),
    LoopInv bm mp src dst nd seq st →
    ∀ N, astar_loop bm mp dst hf nd fuel st = CoreOut.found N →
    ∃ seq2, FoundInv bm mp src dst nd seq2 N := by
  intro fuel
  induction fuel with
  | zero =>
    intro st seq hInv N h
    rw [show astar_loop bm mp dst hf nd 0 st = CoreOut.fuelout from rfl] at h
    cases h
  | succ fuel ih =>
    intro st seq hInv N h
    obtain ⟨nds, cls, opl⟩ := st
    rcases opl with _ | ⟨n₀, rest⟩
    · rw [show astar_loop bm mp dst hf nd (fuel + 1) ⟨nds, cls, []⟩ = CoreOut.nopath
        from rfl] at h
      cases h
    · rw [astar_loop_succ_cons] at h
      have htmp_mem : (pick_from (n₀ :: rest) n₀ 0 0).1 ∈ n₀ :: rest := by
        rcases pick_from_mem (n₀ :: rest) n₀ 0 0 with hh | hh
        · rw [hh]; exact List.mem_cons_self _ _
        · exact hh
      obtain ⟨hcb, hcr, hcd, hcp⟩ := hInv.open_ok _ htmp_mem
      have hopnok : OpenOk bm mp dst nds
          ((n₀ :: rest).eraseIdx (pick_from (n₀ :: rest) n₀ 0 0).2) :=
        fun n hn => hInv.open_ok n ((List.eraseIdx_sublist (n₀ :: rest) _).subset hn)
      by_cases hc : (pick_from (n₀ :: rest) n₀ 0 0).1.parent ∈ seq
      · have hcl2 : ∀ x, setClosed cls (pick_from (n₀ :: rest) n₀ 0 0).1.parent x = true ↔
            x ∈ seq := by
          intro x
          unfold setClosed
          by_cases hx : x = (pick_from (n₀ :: rest) n₀ 0 0).1.parent
          · simp [hx, hc]
          · simp only [if_neg hx]
            exact hInv.closed_iff x
        have hgood := expand_inv hf hcl2 hc (List.range nd) nds
          ((n₀ :: rest).eraseIdx (pick_from (n₀ :: rest) n₀ 0 0).2)
          (pick_from (n₀ :: rest) n₀ 0 0).1
          (fun i hi => List.mem_range.mp hi) hInv.nodes_inv hopnok
        split at h
        · rename_i N2 hexp
          rw [hexp] at hgood
          cases h
          exact ⟨seq, hgood.1, by rw [hgood.2]; exact hc⟩
        · rename_i N2 opn2 tmp2 hexp
          rw [hexp] at hgood
          refine ih ⟨N2, setClosed cls (pick_from (n₀ :: rest) n₀ 0 0).1.parent, opn2⟩
            seq ⟨hgood.1, hcl2, hgood.2, ?_⟩ N h
          intro he
          rw [he] at hc
          exact absurd hc (List.not_mem_nil _)
      · have hcur_src : seq = [] → (pick_from (n₀ :: rest) n₀ 0 0).1.parent = src := by
          intro he
          have hop := (hInv.init_case he).2
          simp only at hop
          have hn0 : n₀ = ⟨src, 0, 0⟩ := by
            have hh := congrArg List.head? hop
            simpa using hh
          have hrest : rest = [] := by
            have ht := congrArg List.tail hop
            simpa using ht
          subst hn0
          subst hrest
          rfl
        have hN2 := NodesInv_extend hInv.nodes_inv _ hc hcur_src hcb hcr hcd hcp
        have hcl2 : ∀ x, setClosed cls (pick_from (n₀ :: rest) n₀ 0 0).1.parent x = true ↔
            x ∈ seq ++ [(pick_from (n₀ :: rest) n₀ 0 0).1.parent] := by
          intro x
          unfold setClosed
          by_cases hx : x = (pick_from (n₀ :: rest) n₀ 0 0).1.parent
          · simp [hx]
          · simp only [if_neg hx, List.mem_append]
            rw [hInv.closed_iff x]
            simp [hx]
        have hcur2 : (pick_from (n₀ :: rest) n₀ 0 0).1.parent ∈
            seq ++ [(pick_from (n₀ :: rest) n₀ 0 0).1.parent] :=
          List.mem_append_right _ (List.mem_cons_self _ _)
        have hgood := expand_inv hf hcl2 hcur2 (List.range nd) nds
          ((n₀ :: rest).eraseIdx (pick_from (n₀ :: rest) n₀ 0 0).2)
          (pick_from (n₀ :: rest) n₀ 0 0).1
          (fun i hi => List.mem_range.mp hi) hN2 hopnok
        split at h
        · rename_i N2 hexp
          rw [hexp] at hgood
          cases h
          exact ⟨seq ++ [(pick_from (n₀ :: rest) n₀ 0 0).1.parent], hgood.1,
            by rw [hgood.2]; exact hcur2⟩
        · rename_i N2 opn2 tmp2 hexp
          rw [hexp] at hgood
          refine ih ⟨N2, setClosed cls (pick_from (n₀ :: rest) n₀ 0 0).1.parent, opn2⟩
            (seq ++ [(pick_from (n₀ :: rest) n₀ 0 0).1.parent])
            ⟨hgood.1, hcl2, hgood.2, ?_⟩ N h
          intro he
          simp at he



/-- The invariant holds in the initial search state. -/
theorem LoopInv_init {bm : List (List Nat)} {mp : MapParameters} {src dst : Coord}
    (hsr : is_coord_in_range src mp = true)
    (hsb : is_coord_blocked src bm = false)
    (hne : src ≠ dst) (nd : Nat) :
    LoopInv bm mp src dst nd [] (init_state src) := by
  have hsent : src ≠ ⟨-1, -1⟩ := in_range_ne_sentinel src mp hsr
  refine ⟨⟨List.nodup_nil, ?_, ?_, ?_, ?_, ?_, ?_⟩, ?_, ?_, ?_⟩
  · intro x hx
    cases hx
  · intro x hx
    cases hx
  · intro h
    cases h
  · show (init_nodes src src).parent = src
    unfold init_nodes
    rw [setNode_self]
  · intro x hx
    cases hx
  · intro x hxs hxp
    exfalso
    apply hxp
    show (init_nodes src x).parent = _
    unfold init_nodes
    rw [setNode_other _ _ _ _ hxs]
  · intro x
    constructor
    · intro h
      cases h
    · intro h
      cases h
  · intro n hn
    have hn1 : n = ⟨src, 0, 0⟩ := by
      have hn2 : n ∈ [(⟨src, 0, 0⟩ : Node)] := hn
      simpa using hn2
    subst hn1
    refine ⟨hsb, hsr, hne, ?_⟩
    show (init_nodes src src).parent ≠ _
    unfold init_nodes
    rw [setNode_self]
    exact hsent
  · intro _
    exact ⟨rfl, rfl⟩

/-- From `FoundInv`, the parent walk from the destination succeeds and
produces a chain from the destination to the source through unblocked,
in-range cells connected by legal steps. -/
theorem found_path_facts {bm : List (List Nat)} {mp : MapParameters}
    {src dst : Coord} {nd : Nat} {seq : List Coord} {N : Coord → Node}
    (hF : FoundInv bm mp src dst nd seq N) (hnd : nd = 4 ∨ nd = 8)
    (hdb : is_coord_blocked dst bm = false)
    (hdr : is_coord_in_range dst mp = true) :
    ∃ p, get_path_loop N (seq.length + 1) dst = some p ∧
      p.head? = some dst ∧ p.getLast? = some src ∧
      (∀ y, y ∈ p → is_coord_blocked y bm = false ∧ is_coord_in_range y mp = true) ∧
      chain_ok nd p = true := by
  have hN := hF.nodes_inv
  have hPmem := hF.dst_parent_mem
  have hP_ne_sent : (N dst).parent ≠ ⟨-1, -1⟩ := by
    have hk := hN.seq_ok _ hPmem
    exact in_range_ne_sentinel _ mp hk.2
  have hds : dst ≠ src := by
    intro he
    apply hN.dst_notin
    rw [he]
    exact head_mem_of_mem hN.source_first hPmem
  obtain ⟨_, hadj, _⟩ := hN.parent_ok dst hds hP_ne_sent
  have hlen_pos : 0 < seq.length := List.length_pos.mpr (List.ne_nil_of_mem hPmem)
  have hidx : List.indexOf (N dst).parent seq < seq.length :=
    List.indexOf_lt_length.mpr hPmem
  obtain ⟨p', hp', hhead', hlast', hall', hchain'⟩ :=
    chain_from_seq hN hnd (seq.length - 1) (N dst).parent hPmem (by omega)
  have hp'' : get_path_loop N seq.length (N dst).parent = some p' := by
    have he : seq.length - 1 + 1 = seq.length := by omega
    rw [← he]
    exact hp'
  have hpar_ne_dst : (N dst).parent ≠ dst := by
    intro he
    apply hN.dst_notin
    rw [← he]
    exact hPmem
  rcases p' with _ | ⟨b, t⟩
  · cases hhead'
  · have hb : b = (N dst).parent := by simpa using hhead'
    refine ⟨dst :: b :: t, ?_, rfl, ?_, ?_, ?_⟩
    · show get_path_loop N (seq.length + 1) dst = _
      unfold get_path_loop
      rw [if_neg hpar_ne_dst, hp'']
      rfl
    · rw [List.getLast?_cons_cons]
      exact hlast'
    · intro y hy
      rcases List.mem_cons.mp hy with hy1 | hy1
      · subst hy1
        exact ⟨hdb, hdr⟩
      · exact hall' y hy1
    · have hleg : legal_step nd dst b = true := by
        rw [hb]
        exact legal_step_symm hnd hadj
      show (legal_step nd dst b && chain_ok nd (b :: t)) = true
      rw [Bool.and_eq_true]
      exact ⟨hleg, hchain'⟩



/-- Everything a successful `find_path` call guarantees: the
preconditions held, and the returned path runs destination → source
through unblocked, in-range cells connected by legal steps of the active
connectivity. -/
theorem find_path_success_facts {bm : List (List Nat)} {mp : MapParameters}
    {src dst : Coord} {t : HeuristicType} {fuel fuelg : Nat} {p : List Coord}
    (h : find_path bm mp src dst t fuel fuelg = some p) :
    is_coord_in_range src mp = true ∧ is_coord_in_range dst mp = true ∧
    is_coord_blocked src bm = false ∧ is_coord_blocked dst bm = false ∧
    src ≠ dst ∧
    p.head? = some dst ∧ p.getLast? = some src ∧
    (∀ y, y ∈ p → is_coord_blocked y bm = false ∧ is_coord_in_range y mp = true) ∧
    chain_ok (num_directions t) p = true := by
  unfold find_path at h
  by_cases hbm : bm = []
  · rw [if_pos hbm] at h
    cases h
  · rw [if_neg hbm] at h
    cases hA2 : astar bm mp src dst (heuristic_func t) (num_directions t) fuel fuelg with
    | none =>
      rw [hA2] at h
      cases h
    | some p2 =>
      rw [hA2] at h
      have h2 : (if p2 = [] then none else some p2) = some p := h
      by_cases hp2 : p2 = []
      · rw [if_pos hp2] at h2
        cases h2
      · rw [if_neg hp2] at h2
        have hpp : p2 = p := Option.some.inj h2
        subst hpp
        unfold astar at hA2
        split_ifs at hA2 with h1 h2 h3 h4 h5
        · exact absurd (Option.some.inj hA2).symm hp2
        · exact absurd (Option.some.inj hA2).symm hp2
        · exact absurd (Option.some.inj hA2).symm hp2
        · exact absurd (Option.some.inj hA2).symm hp2
        · exact absurd (Option.some.inj hA2).symm hp2
        · have hsr : is_coord_in_range src mp = true := by
            cases hh : is_coord_in_range src mp
            · exact absurd hh h1
            · rfl
          have hdr : is_coord_in_range dst mp = true := by
            cases hh : is_coord_in_range dst mp
            · exact absurd hh h2
            · rfl
          have hsb : is_coord_blocked src bm = false := by
            cases hh : is_coord_blocked src bm
            · rfl
            · exact absurd hh h3
          have hdb : is_coord_blocked dst bm = false := by
            cases hh : is_coord_blocked dst bm
            · rfl
            · exact absurd hh h4
          refine ⟨hsr, hdr, hsb, hdb, h5, ?_⟩
          cases hloop : astar_loop bm mp dst (heuristic_func t) (num_directions t)
              fuel (init_state src) with
          | found N =>
            rw [hloop] at hA2
            have hgp : get_path_loop N fuelg dst = some p2 := hA2
            obtain ⟨seq2, hF⟩ := astar_loop_found_inv fuel (init_state src) []
              (LoopInv_init hsr hsb h5 _) N hloop
            obtain ⟨p0, hp0, hhead0, hlast0, hall0, hchain0⟩ :=
              found_path_facts hF (num_directions_cases t) hdb hdr
            have hpe : p2 = p0 := get_path_loop_unique N fuelg _ dst p2 p0 hgp hp0
            subst hpe
            exact ⟨hhead0, hlast0, hall0, hchain0⟩
          | nopath =>
            rw [hloop] at hA2
            have hno : (some ([] : List Coord)) = some p2 := hA2
            exact absurd (Option.some.inj hno).symm hp2
          | fuelout =>
            rw [hloop] at hA2
            have hfo : (none : Option (List Coord)) = some p2 := hA2
            cases hfo

/-- Assembling the boolean path-validity predicate from its parts. -/
theorem is_valid_path_of_facts {bm : List (List Nat)} {mp : MapParameters}
    {nd : Nat} {a b : Coord} {p : List Coord}
    (hhead : p.head? = some a) (hlast : p.getLast? = some b)
    (hall : ∀ y, y ∈ p → is_coord_blocked y bm = false ∧ is_coord_in_range y mp = true)
    (hchain : chain_ok nd p = true) :
    is_valid_path bm mp nd a b p = true := by
  unfold is_valid_path
  rw [Bool.and_eq_true, Bool.and_eq_true, Bool.and_eq_true]
  refine ⟨⟨⟨decide_eq_true hhead, decide_eq_true hlast⟩, ?_⟩, hchain⟩
  rw [List.all_eq_true]
  intro y hy
  obtain ⟨hb, hr⟩ := hall y hy
  rw [Bool.and_eq_true]
  exact ⟨hr, by rw [hb]; rfl⟩




/-- C2 amended: for every successful `find_path` call with `source ≠
destination`, the returned path's FIRST element equals the destination and
its LAST element equals the source — the parent-pointer sequence collected
by `get_path` is returned without the reversal the claim describes. -/
theorem C2_endpoints_amended (bm : List (List Nat)) (mp : MapParameters)
    (src dst : Coord) (t : HeuristicType) (fuel fuelg : Nat) (p : List Coord)
    (h : find_path bm mp src dst t fuel fuelg = some p) (_hne : src ≠ dst) :
    p.head? = some dst ∧ p.getLast? = some src := by
  obtain ⟨_, _, _, _, _, h6, h7, _, _⟩ := find_path_success_facts h
  exact ⟨h6, h7⟩

/-- C2 amended, witnessed at the successful 1×3 run. -/
theorem C2_endpoints_amended_witness :
    cexPathC2.head? = some (⟨0, 2⟩ : Coord) ∧
    cexPathC2.getLast? = some (⟨0, 0⟩ : Coord) :=
  C2_endpoints_amended BM13F P13F ⟨0, 0⟩ ⟨0, 2⟩ .MANHATTAN 100 20 cexPathC2
    (by decide) (by decide)

/-- C3.  For every successful `find_path` call, no coordinate of the
returned path lies on a cell classified `BLOCKED` in the input occupancy
grid: the endpoints are checked up front and the search only ever assigns
parents through unblocked cells. -/
theorem C3_no_blocked_on_path (bm : List (List Nat)) (mp : MapParameters)
    (src dst : Coord) (t : HeuristicType) (fuel fuelg : Nat) (p : List Coord)
    (h : find_path bm mp src dst t fuel fuelg = some p) :
    ∀ x, x ∈ p → is_coord_blocked x bm = false := by
  obtain ⟨_, _, _, _, _, _, _, h8, _⟩ := find_path_success_facts h
  exact fun x hx => (h8 x hx).1

/-- C3, witnessed at a cell of the successful 1×3 run's path. -/
theorem C3_no_blocked_on_path_witness :
    is_coord_blocked ⟨0, 1⟩ BM13F = false :=
  C3_no_blocked_on_path BM13F P13F ⟨0, 0⟩ ⟨0, 2⟩ .MANHATTAN 100 20 cexPathC2
    (by decide) ⟨0, 1⟩ (by decide)

/-- C1 amended: for every successful `find_path` call, the returned path
is a valid destination-to-source path over the grid and the active
connectivity, so its total cost is AT LEAST the minimal
source-to-destination cost — but, as `C1_counterexample` shows, equality
can fail, so the minimum is only a lower bound. -/
theorem C1_optimality_amended (bm : List (List Nat)) (mp : MapParameters)
    (src dst : Coord) (t : HeuristicType) (fuel fuelg : Nat) (p : List Coord)
    (h : find_path bm mp src dst t fuel fuelg = some p) :
    is_valid_path bm mp (num_directions t) dst src p = true ∧
    ∀ m, is_min_cost bm mp (num_directions t) src dst m → m ≤ path_cost p := by
  obtain ⟨_, _, _, _, _, h6, h7, h8, h9⟩ := find_path_success_facts h
  have hvalid := is_valid_path_of_facts h6 h7 h8 h9
  refine ⟨hvalid, ?_⟩
  intro m hm
  have hvrev : is_valid_path bm mp (num_directions t) src dst p.reverse = true := by
    apply is_valid_path_of_facts
    · rw [List.head?_reverse]; exact h7
    · rw [List.getLast?_reverse]; exact h6
    · intro y hy; exact h8 y (List.mem_reverse.mp hy)
    · exact chain_ok_reverse (num_directions_cases t) p h9
  have hle := hm.2 p.reverse hvrev
  rw [path_cost_reverse] at hle
  exact hle

/-- C1 amended, witnessed at the 3×3 run of the counterexample. -/
theorem C1_optimality_amended_witness :
    is_valid_path BM33F P33F (num_directions .EUCLIDEAN) ⟨0, 1⟩ ⟨2, 1⟩ cexPathC1 = true ∧
    4 ≤ path_cost cexPathC1 := by
  have h := C1_optimality_amended BM33F P33F ⟨2, 1⟩ ⟨0, 1⟩ .EUCLIDEAN 100 20 cexPathC1
    (by decide)
  exact ⟨h.1, h.2 4 C1_cex_min_cost⟩

/-- C10.  After every search that reaches the destination (the loop
returns `found`), following parent back-pointers from the destination
reaches the source — the one cell whose parent is itself — in finitely
many steps, so path reconstruction terminates and never cycles. -/
theorem C10_parent_chain_terminates (bm : List (List Nat)) (mp : MapParameters)
    (src dst : Coord) (t : HeuristicType) (fuel : Nat) (N : Coord → Node)
    (hsr : is_coord_in_range src mp = true) (hdr : is_coord_in_range dst mp = true)
    (hsb : is_coord_blocked src bm = false) (hdb : is_coord_blocked dst bm = false)
    (hne : src ≠ dst)
    (h : astar_loop bm mp dst (heuristic_func t) (num_directions t) fuel
      (init_state src) = CoreOut.found N) :
    (∃ n, parent_iter N n dst = src) ∧ (N src).parent = src := by
  obtain ⟨seq2, hF⟩ := astar_loop_found_inv fuel (init_state src) []
    (LoopInv_init hsr hsb hne _) N h
  obtain ⟨p, hp, hhead, hlast, _, _⟩ :=
    found_path_facts hF (num_directions_cases t) hdb hdr
  have hiter := get_path_loop_last_iter N _ dst p hp
  rw [hlast] at hiter
  exact ⟨⟨p.length - 1, (Option.some.inj hiter).symm⟩, hF.nodes_inv.src_parent⟩

/-- C10, witnessed on the concrete 1×3 search. -/
theorem C10_parent_chain_terminates_witness :
    (∃ n, parent_iter foundN13 n ⟨0, 2⟩ = ⟨0, 0⟩) ∧
    (foundN13 ⟨0, 0⟩).parent = ⟨0, 0⟩ :=
  C10_parent_chain_terminates BM13F P13F ⟨0, 0⟩ ⟨0, 2⟩ .MANHATTAN 100 foundN13
    (by decide) (by decide) (by decide) (by decide) (by decide) (by rfl)

end Planner
